import Mathlib

/-!
Shallow embedding of the snake-game core (`src/lib.rs`).

The source uses `f64` arithmetic; coordinates and distances are modelled as
real numbers.  Fallible operations (the `unwrap` panics in food placement)
are modelled with `Option`, `none` standing for a panic.  The process-wide
random source used by food placement is modelled as an injected index `k`
into the list of free positions, following the design note that random
sampling is an external, injected capability.
-/

namespace Snake

/-- Named tolerance constant declared in the source (`X_EPSILON = 0.00001`).
It is declared on the `ApproximateEq` trait but never used in any comparison. -/
noncomputable def X_EPSILON : ℝ := 0.00001

/-- Machine epsilon for 64-bit floats, `f64::EPSILON` = 2⁻⁵²; this is the
tolerance actually used by `approximate_eq`. -/
noncomputable def f64Epsilon : ℝ := 1 / 2 ^ 52

/-- `f64::approximate_eq`: absolute difference strictly below `f64::EPSILON`. -/
def approximateEq (a b : ℝ) : Prop := |a - b| < f64Epsilon

/-- `Vector { x: f64, y: f64 }`. -/
@[ext]
structure Vector where
  x : ℝ
  y : ℝ

instance : Add Vector := ⟨fun a b => ⟨a.x + b.x, a.y + b.y⟩⟩

instance : Sub Vector := ⟨fun a b => ⟨a.x - b.x, a.y - b.y⟩⟩

instance : Neg Vector := ⟨fun a => ⟨-a.x, -a.y⟩⟩

/-- `Vector::scale` / `Mul<f64> for Vector`: componentwise scaling. -/
def Vector.scale (v : Vector) (c : ℝ) : Vector := ⟨v.x * c, v.y * c⟩

/-- `Vector::length`: Euclidean norm (`hypot`). -/
noncomputable def Vector.length (v : Vector) : ℝ := Real.sqrt (v.x ^ 2 + v.y ^ 2)

/-- `Vector::normalize`: scale by the reciprocal length. -/
noncomputable def Vector.normalize (v : Vector) : Vector := v.scale (1 / v.length)

/-- `PartialEq for Vector`: both coordinates approximately equal. -/
def vecEq (a b : Vector) : Prop := approximateEq a.x b.x ∧ approximateEq a.y b.y

@[simp] lemma add_x (a b : Vector) : (a + b).x = a.x + b.x := rfl

@[simp] lemma add_y (a b : Vector) : (a + b).y = a.y + b.y := rfl

@[simp] lemma sub_x (a b : Vector) : (a - b).x = a.x - b.x := rfl

@[simp] lemma sub_y (a b : Vector) : (a - b).y = a.y - b.y := rfl

@[simp] lemma neg_x (a : Vector) : (-a).x = -a.x := rfl

@[simp] lemma neg_y (a : Vector) : (-a).y = -a.y := rfl

@[simp] lemma scale_x (a : Vector) (c : ℝ) : (a.scale c).x = a.x * c := rfl

@[simp] lemma scale_y (a : Vector) (c : ℝ) : (a.scale c).y = a.y * c := rfl

/-- `Segment { start: Vector, end: Vector }` (the `end` field is named `stop`
here because `end` is a reserved word). -/
structure Segment where
  start : Vector
  stop : Vector

/-- `Segment::vector`: `end - start`. -/
def Segment.vector (s : Segment) : Vector := s.stop - s.start

/-- `Segment::length`. -/
noncomputable def Segment.length (s : Segment) : ℝ := s.vector.length

/-- `Segment::is_point_inside`: the segment length approximately equals the sum
of the lengths from `start` to the point and from the point to `end`. -/
noncomputable def Segment.isPointInside (s : Segment) (point : Vector) : Prop :=
  approximateEq s.length ((Segment.mk s.start point).length + (Segment.mk point s.stop).length)

/-- `Movement`: the four axis-aligned directions. -/
inductive Movement where
  | top
  | right
  | down
  | left

/-- `Movement::vector`: unit direction vector of a movement. -/
def Movement.vector : Movement → Vector
  | .top => ⟨0, -1⟩
  | .right => ⟨1, 0⟩
  | .down => ⟨0, 1⟩
  | .left => ⟨-1, 0⟩

/-- Cell centers `(x + 0.5, y + 0.5)` for `x in 0..width`, `y in 0..height`,
in the iteration order of `generate_food_position`. -/
def cellCenters (width height : ℤ) : List Vector :=
  ((List.range width.toNat).map (fun x : ℕ =>
    (List.range height.toNat).map (fun y : ℕ =>
      Vector.mk ((x : ℝ) + 0.5) ((y : ℝ) + 0.5)))).flatten

/-- Segments between consecutive snake waypoints (`snake.windows(2)`). -/
def segmentsOf : List Vector → List Segment
  | a :: b :: rest => Segment.mk a b :: segmentsOf (b :: rest)
  | _ => []

/-- Free cell centers: those on which no snake segment's `is_point_inside` holds. -/
noncomputable def freePositions (width height : ℤ) (snake : List Vector) : List Vector :=
  (cellCenters width height).filter (fun point =>
    @decide (¬ ∃ seg ∈ segmentsOf snake, seg.isPointInside point) (Classical.propDecidable _))

/-- `generate_food_position`: collect the free cell centers and pick one with the
process-wide random source, then `unwrap` the choice.  The random draw is modelled
by the injected index `k` (reduced modulo the number of free positions); the
`unwrap` panic on an empty list is modelled by `none`. -/
noncomputable def generateFoodPosition (width height : ℤ) (snake : List Vector) (k : ℕ) :
    Option Vector :=
  let free := freePositions width height snake
  free.get? (k % free.length)

/-- `Game`: grid dimensions, speed, score, heading, food and the snake polyline. -/
structure Game where
  width : ℤ
  height : ℤ
  speed : ℝ
  score : ℤ
  direction : Vector
  food : Vector
  snake : List Vector

/-- `f64::round`: nearest integer, halves rounded away from zero. -/
noncomputable def roundf (x : ℝ) : ℝ :=
  if 0 ≤ x then ((⌊x + 1 / 2⌋ : ℤ) : ℝ) else -((⌊-x + 1 / 2⌋ : ℤ) : ℝ)

/-- Initial snake of `Game::new`: head at the rounded grid-center cell center,
tail tip `snake_length` cells behind the head along `-direction`. -/
noncomputable def initSnake (width height snake_length : ℤ) (direction : Vector) :
    List Vector :=
  let head := Vector.mk (roundf ((width : ℝ) / 2) - 0.5) (roundf ((height : ℝ) / 2) - 0.5)
  let tail_tip := head - direction.scale (snake_length : ℝ)
  [tail_tip, head]

/-- `Game::new`.  In the source the food field is produced by
`generate_food_position` from the process-wide random source; the sampled value
is injected here as the `food` parameter (the sampling itself is modelled by
`generateFoodPosition`). -/
noncomputable def gameNew (width height : ℤ) (speed : ℝ) (snake_length : ℤ)
    (direction food : Vector) : Game :=
  { width := width
    height := height
    speed := speed
    score := 0
    direction := direction
    food := food
    snake := initSnake width height snake_length direction }

/-- Tail-erosion loop of `process_movement`: walk the waypoint list from the
tail consuming a `remaining` arc-length budget; when a segment is at least as
long as the budget, replace its start point by the point `remaining` along it
and stop.  The returned list is `new_snake` appended with the unconsumed rest. -/
noncomputable def erode (remaining : ℝ) : List Vector → List Vector
  | [] => []
  | [p] => [p]
  | p :: next :: rest =>
    let segment := Segment.mk p next
    if remaining ≤ segment.length then
      (p + (segment.vector.normalize.scale remaining)) :: next :: rest
    else
      erode (remaining - segment.length) (next :: rest)

open Classical in
/-- `Game::process_movement` (the body of `Game::process`).  `none` models the
panic of `self.snake.pop().unwrap()` on an empty polyline. -/
noncomputable def processMovement (g : Game) (timespan : ℝ) (movement : Option Movement) :
    Option Game :=
  let full_distance := g.speed * timespan
  let s1 := erode full_distance g.snake
  match s1.getLast? with
  | none => none
  | some old_head =>
    let body := s1.dropLast
    let new_head := old_head + g.direction.scale full_distance
    match movement with
    | none => some { g with snake := body ++ [new_head] }
    | some m =>
      let new_direction := m.vector
      if ¬ vecEq g.direction (-new_direction) ∧ ¬ vecEq g.direction new_direction then
        if roundf old_head.x ≠ roundf new_head.x ∨ roundf old_head.y ≠ roundf new_head.y then
          let pick :=
            if roundf old_head.x ≠ roundf new_head.x then
              (old_head.x, roundf old_head.x, roundf new_head.x)
            else
              (old_head.y, roundf old_head.y, roundf new_head.y)
          let old := pick.1
          let old_rounded := pick.2.1
          let new_rounded := pick.2.2
          let breakpoint_component :=
            if new_rounded > old_rounded then old_rounded + 0.5 else old_rounded - 0.5
          let breakpoint :=
            if roundf old_head.x ≠ roundf new_head.x then
              Vector.mk breakpoint_component old_head.y
            else
              Vector.mk old_head.x breakpoint_component
          let vec := new_direction.scale (full_distance - |old - breakpoint_component|)
          let head := breakpoint + vec
          some { g with snake := body ++ [breakpoint, head], direction := new_direction }
        else
          some { g with snake := body ++ [new_head] }
      else
        some { g with snake := body ++ [new_head] }

/-- Sum of the lengths of the segments between consecutive waypoints. -/
noncomputable def totalLen : List Vector → ℝ
  | p :: q :: rest => (q - p).length + totalLen (q :: rest)
  | _ => 0

/-- The tick resolves a turn: a movement is requested, it is neither the current
direction nor its negation (up to approximate equality), and the straight
advance changes a rounded head coordinate. -/
noncomputable def turnResolved (g : Game) (timespan : ℝ) (movement : Option Movement) : Prop :=
  ∃ m oh, movement = some m ∧
    (erode (g.speed * timespan) g.snake).getLast? = some oh ∧
    ¬ vecEq g.direction (-(m.vector)) ∧ ¬ vecEq g.direction m.vector ∧
    (roundf oh.x ≠ roundf (oh + g.direction.scale (g.speed * timespan)).x ∨
     roundf oh.y ≠ roundf (oh + g.direction.scale (g.speed * timespan)).y)

@[simp] lemma segment_vector_mk (a b : Vector) : (Segment.mk a b).vector = b - a := rfl

@[simp] lemma segment_length_mk (a b : Vector) : (Segment.mk a b).length = (b - a).length := rfl

lemma length_nonneg (v : Vector) : 0 ≤ v.length := Real.sqrt_nonneg _

lemma length_mk_x (a : ℝ) : (Vector.mk a 0).length = |a| := by
  show Real.sqrt (a ^ 2 + 0 ^ 2) = |a|
  rw [show a ^ 2 + 0 ^ 2 = a ^ 2 by ring, Real.sqrt_sq_eq_abs]

lemma length_mk_y (b : ℝ) : (Vector.mk 0 b).length = |b| := by
  show Real.sqrt (0 ^ 2 + b ^ 2) = |b|
  rw [show 0 ^ 2 + b ^ 2 = b ^ 2 by ring, Real.sqrt_sq_eq_abs]

lemma length_scale (v : Vector) (c : ℝ) : (v.scale c).length = |c| * v.length := by
  show Real.sqrt ((v.x * c) ^ 2 + (v.y * c) ^ 2) = |c| * Real.sqrt (v.x ^ 2 + v.y ^ 2)
  rw [show (v.x * c) ^ 2 + (v.y * c) ^ 2 = c ^ 2 * (v.x ^ 2 + v.y ^ 2) by ring,
    Real.sqrt_mul (sq_nonneg c), Real.sqrt_sq_eq_abs]

lemma length_eq_zero_iff (v : Vector) : v.length = 0 ↔ v = ⟨0, 0⟩ := by
  constructor
  · intro h
    have h2 : v.x ^ 2 + v.y ^ 2 ≤ 0 := Real.sqrt_eq_zero'.mp h
    have hx : v.x = 0 := by nlinarith [sq_nonneg v.x, sq_nonneg v.y]
    have hy : v.y = 0 := by nlinarith [sq_nonneg v.x, sq_nonneg v.y]
    ext <;> simp [hx, hy]
  · rintro rfl
    show Real.sqrt (0 ^ 2 + 0 ^ 2) = 0
    norm_num

/-- Distance from the eroded break point to the segment end: eroding `r` of a
segment of sufficient length leaves exactly `length - r` of it. -/
lemma erode_point_dist (p q : Vector) (r : ℝ) (h0 : 0 ≤ r) (hr : r ≤ (q - p).length) :
    (q - (p + ((q - p).normalize.scale r))).length = (q - p).length - r := by
  by_cases hz : (q - p).length = 0
  · have hr0 : r = 0 := le_antisymm (by rw [hz] at hr; exact hr) h0
    have h1 : q - (p + ((q - p).normalize.scale r)) = q - p := by
      subst hr0
      ext <;> simp [Vector.normalize, Vector.scale]
    rw [h1, hz, hr0, sub_zero]
  · have hpos : 0 < (q - p).length := lt_of_le_of_ne (length_nonneg _) (Ne.symm hz)
    have key : q - (p + ((q - p).normalize.scale r)) =
        (q - p).scale (1 - r / (q - p).length) := by
      ext
      · show q.x - (p.x + (q - p).x * (1 / (q - p).length) * r) =
          (q - p).x * (1 - r / (q - p).length)
        field_simp
        ring
      · show q.y - (p.y + (q - p).y * (1 / (q - p).length) * r) =
          (q - p).y * (1 - r / (q - p).length)
        field_simp
        ring
    rw [key, length_scale]
    have h1 : 0 ≤ 1 - r / (q - p).length := by
      rw [sub_nonneg, div_le_one hpos]
      exact hr
    rw [abs_of_nonneg h1]
    field_simp

lemma totalLen_nil : totalLen [] = 0 := rfl

lemma totalLen_singleton (p : Vector) : totalLen [p] = 0 := rfl

lemma totalLen_cons_cons (p q : Vector) (rest : List Vector) :
    totalLen (p :: q :: rest) = (q - p).length + totalLen (q :: rest) := by
  rw [totalLen]

lemma totalLen_nonneg (s : List Vector) : 0 ≤ totalLen s := by
  induction s with
  | nil => simp [totalLen_nil]
  | cons p tail ih =>
    cases tail with
    | nil => simp [totalLen_singleton]
    | cons q rest =>
      rw [totalLen_cons_cons]
      have := length_nonneg (q - p)
      linarith

lemma erode_getLast? (r : ℝ) (s : List Vector) : (erode r s).getLast? = s.getLast? := by
  induction s generalizing r with
  | nil => rfl
  | cons p tail ih =>
    cases tail with
    | nil => rfl
    | cons next rest =>
      simp only [erode]
      split_ifs with h
      · rw [List.getLast?_cons_cons, List.getLast?_cons_cons]
      · rw [ih, List.getLast?_cons_cons]

/-- Tail erosion removes exactly `r` of arc length when the budget does not
exceed the polyline's total length. -/
lemma erode_totalLen (r : ℝ) (s : List Vector) (h0 : 0 ≤ r) (hr : r ≤ totalLen s) :
    totalLen (erode r s) = totalLen s - r := by
  induction s generalizing r with
  | nil =>
    rw [totalLen_nil] at hr ⊢
    have : r = 0 := le_antisymm hr h0
    simp [erode, totalLen_nil, this]
  | cons p tail ih =>
    cases tail with
    | nil =>
      rw [totalLen_singleton] at hr ⊢
      have : r = 0 := le_antisymm hr h0
      simp [erode, totalLen_singleton, this]
    | cons next rest =>
      simp only [erode, segment_length_mk, segment_vector_mk]
      rw [totalLen_cons_cons] at hr
      split_ifs with h
      · rw [totalLen_cons_cons, totalLen_cons_cons,
          erode_point_dist p next r h0 h]
        ring
      · push_neg at h
        have h0' : 0 ≤ r - (next - p).length := by linarith
        have hr' : r - (next - p).length ≤ totalLen (next :: rest) := by linarith
        rw [ih _ h0' hr', totalLen_cons_cons]
        ring

lemma erode_length_ge (r : ℝ) (s : List Vector) (h2 : 2 ≤ s.length)
    (hr : r ≤ totalLen s) : 2 ≤ (erode r s).length := by
  induction s generalizing r with
  | nil => simp at h2
  | cons p tail ih =>
    cases tail with
    | nil => simp at h2
    | cons next rest =>
      simp only [erode, segment_length_mk, segment_vector_mk]
      rw [totalLen_cons_cons] at hr
      split_ifs with h
      · simp
      · push_neg at h
        cases rest with
        | nil =>
          rw [totalLen_singleton] at hr
          have := length_nonneg (next - p)
          linarith
        | cons b bs =>
          exact ih _ (by simp) (by linarith)

/-- The polyline ends with a segment pointing along `d` (possibly degenerate):
its last two waypoints `p, q` satisfy `q - p = d.scale c` for some `c ≥ 0`.
This is the head-alignment invariant of game states (§3: `direction` is the
current unit heading of the head segment). -/
def alignedHead (d : Vector) (s : List Vector) : Prop :=
  ∃ pre p q c, s = pre ++ [p, q] ∧ 0 ≤ c ∧ q - p = d.scale c

lemma alignedHead_cons (d x : Vector) (l : List Vector) (h : alignedHead d l) :
    alignedHead d (x :: l) := by
  obtain ⟨pre, p, q, c, rfl, hc, hpq⟩ := h
  exact ⟨x :: pre, p, q, c, rfl, hc, hpq⟩

lemma alignedHead_of_cons (d x : Vector) (l : List Vector) (h : alignedHead d (x :: l))
    (hl : 2 ≤ l.length) : alignedHead d l := by
  obtain ⟨pre, p, q, c, heq, hc, hpq⟩ := h
  cases pre with
  | nil =>
    rw [List.nil_append] at heq
    injection heq with h1 h2
    subst h2
    simp at hl
  | cons a pre' =>
    rw [List.cons_append] at heq
    injection heq with h1 h2
    exact ⟨pre', p, q, c, h2, hc, hpq⟩

lemma normalize_scale_of_unit (d : Vector) (hd : d.length = 1) (c : ℝ) (hc : 0 < c) :
    (d.scale c).normalize = d := by
  unfold Vector.normalize
  rw [length_scale, hd, mul_one, abs_of_pos hc]
  ext
  · show d.x * c * (1 / c) = d.x
    field_simp
  · show d.y * c * (1 / c) = d.y
    field_simp

lemma scale_zero_vector (r : ℝ) : (Vector.mk 0 0).normalize.scale r = ⟨0, 0⟩ := by
  ext <;> simp [Vector.normalize, Vector.scale]

/-- Erosion within budget preserves the head-alignment invariant. -/
lemma erode_aligned (d : Vector) (r : ℝ) (s : List Vector) (hd : d.length = 1)
    (h0 : 0 ≤ r) (hr : r ≤ totalLen s) (ha : alignedHead d s) :
    alignedHead d (erode r s) := by
  induction s generalizing r with
  | nil =>
    obtain ⟨pre, p, q, c, heq, -, -⟩ := ha
    have := congrArg List.length heq
    simp at this
  | cons p0 tail ih =>
    cases tail with
    | nil =>
      obtain ⟨pre, p, q, c, heq, -, -⟩ := ha
      have := congrArg List.length heq
      simp at this
    | cons n0 rest =>
      simp only [erode, segment_length_mk, segment_vector_mk]
      rw [totalLen_cons_cons] at hr
      split_ifs with h
      · cases rest with
        | nil =>
          obtain ⟨pre, p, q, c, heq, hc, hpq⟩ := ha
          cases pre with
          | cons a pre' =>
            rw [List.cons_append] at heq
            injection heq with h1 h2
            have := congrArg List.length h2
            simp at this
          | nil =>
            rw [List.nil_append] at heq
            injection heq with h1 h2
            injection h2 with h2 h3
            subst h1
            subst h2
            rcases eq_or_lt_of_le hc with hc0 | hc0
            · have hz : n0 - p0 = ⟨0, 0⟩ := by
                rw [hpq, ← hc0]
                ext <;> simp [Vector.scale]
              have he : p0 + ((n0 - p0).normalize.scale r) = p0 := by
                rw [hz, scale_zero_vector]
                ext <;> simp
              exact ⟨[], p0 + ((n0 - p0).normalize.scale r), n0, c, rfl, hc, by rw [he, hpq]⟩
            · have hlen' : (n0 - p0).length = c := by
                rw [hpq, length_scale, hd, mul_one, abs_of_pos hc0]
              have he : p0 + ((n0 - p0).normalize.scale r) = p0 + d.scale r := by
                rw [hpq, normalize_scale_of_unit d hd c hc0]
              refine ⟨[], p0 + ((n0 - p0).normalize.scale r), n0, c - r, rfl, by
                rw [hlen'] at h; linarith, ?_⟩
              rw [he]
              have hx := congrArg Vector.x hpq
              have hy := congrArg Vector.y hpq
              simp [Vector.scale] at hx hy
              ext
              · show n0.x - (p0.x + d.x * r) = d.x * (c - r)
                linear_combination hx
              · show n0.y - (p0.y + d.y * r) = d.y * (c - r)
                linear_combination hy
        | cons b bs =>
          have ha' : alignedHead d (n0 :: b :: bs) :=
            alignedHead_of_cons d p0 _ ha (by simp)
          exact alignedHead_cons d _ _ ha'
      · push_neg at h
        cases rest with
        | nil =>
          rw [totalLen_singleton] at hr
          linarith
        | cons b bs =>
          have ha' : alignedHead d (n0 :: b :: bs) :=
            alignedHead_of_cons d p0 _ ha (by simp)
          exact ih _ (by linarith) (by linarith) ha'

open Classical in
/-- When no turn is resolved (no movement, a suppressed request, or a deferred
request), `process_movement` erodes the tail and appends the straight new head. -/
lemma processMovement_straight (g : Game) (t : ℝ) (mv : Option Movement) (oh : Vector)
    (hlast : (erode (g.speed * t) g.snake).getLast? = some oh)
    (hnoturn : ¬ turnResolved g t mv) :
    processMovement g t mv = some { g with snake :=
      (erode (g.speed * t) g.snake).dropLast ++ [oh + g.direction.scale (g.speed * t)] } := by
  unfold processMovement
  simp only [hlast]
  cases mv with
  | none => rfl
  | some m =>
    dsimp only
    by_cases h1 : ¬ vecEq g.direction (-m.vector) ∧ ¬ vecEq g.direction m.vector
    · by_cases h2 : roundf oh.x ≠ roundf (oh + g.direction.scale (g.speed * t)).x ∨
          roundf oh.y ≠ roundf (oh + g.direction.scale (g.speed * t)).y
      · exact absurd ⟨m, oh, rfl, hlast, h1.1, h1.2, h2⟩ hnoturn
      · rw [if_pos h1, if_neg h2]
    · rw [if_neg h1]

lemma totalLen_concat (l : List Vector) (p x : Vector) :
    totalLen (l ++ [p, x]) = totalLen (l ++ [p]) + (x - p).length := by
  induction l with
  | nil =>
    rw [List.nil_append, List.nil_append, totalLen_cons_cons, totalLen_singleton,
      totalLen_singleton]
    ring
  | cons a l ih =>
    cases l with
    | nil =>
      simp only [List.nil_append, List.cons_append, totalLen_cons_cons, totalLen_singleton]
      ring
    | cons b l' =>
      simp only [List.cons_append] at ih ⊢
      rw [totalLen_cons_cons, totalLen_cons_cons, ih]
      ring

/-- C1: on a tick that resolves no turn (no movement, a suppressed request, or
a deferred request), with a unit heading, the head segment aligned with the
heading, and total polyline length at least `full_distance = speed * timespan`,
the tail is eroded by exactly `full_distance` of arc length and the total
polyline length after `process` equals the total before. -/
theorem motion_conservation (g : Game) (t : ℝ) (mv : Option Movement)
    (hfd : 0 ≤ g.speed * t) (hunit : g.direction.length = 1)
    (halign : alignedHead g.direction g.snake)
    (htot : g.speed * t ≤ totalLen g.snake)
    (hnoturn : ¬ turnResolved g t mv) :
    ∃ g', processMovement g t mv = some g' ∧
      totalLen (erode (g.speed * t) g.snake) = totalLen g.snake - g.speed * t ∧
      totalLen g'.snake = totalLen g.snake := by
  have ha' := erode_aligned g.direction (g.speed * t) g.snake hunit hfd htot halign
  obtain ⟨pre, p, q, c, heq, hc, hpq⟩ := ha'
  have hsplit : erode (g.speed * t) g.snake = (pre ++ [p]) ++ [q] := by
    rw [heq]
    simp
  have hlast : (erode (g.speed * t) g.snake).getLast? = some q := by
    rw [hsplit]
    exact List.getLast?_concat _
  have hdrop : (erode (g.speed * t) g.snake).dropLast = pre ++ [p] := by
    rw [hsplit, List.dropLast_concat]
  have et := erode_totalLen (g.speed * t) g.snake hfd htot
  refine ⟨_, processMovement_straight g t mv q hlast hnoturn, et, ?_⟩
  have hqp : (q - p).length = c := by
    rw [hpq, length_scale, hunit, mul_one, abs_of_nonneg hc]
  have hnp : (q + g.direction.scale (g.speed * t)) - p =
      g.direction.scale (c + g.speed * t) := by
    have hx := congrArg Vector.x hpq
    have hy := congrArg Vector.y hpq
    simp [Vector.scale] at hx hy
    ext
    · show q.x + g.direction.x * (g.speed * t) - p.x = g.direction.x * (c + g.speed * t)
      linear_combination hx
    · show q.y + g.direction.y * (g.speed * t) - p.y = g.direction.y * (c + g.speed * t)
      linear_combination hy
  have hnl : ((q + g.direction.scale (g.speed * t)) - p).length = c + g.speed * t := by
    rw [hnp, length_scale, hunit, mul_one, abs_of_nonneg (by linarith)]
  show totalLen ((erode (g.speed * t) g.snake).dropLast ++
    [q + g.direction.scale (g.speed * t)]) = totalLen g.snake
  rw [hdrop, show (pre ++ [p]) ++ [q + g.direction.scale (g.speed * t)] =
    pre ++ [p, q + g.direction.scale (g.speed * t)] by simp]
  rw [totalLen_concat, hnl]
  have e1 : totalLen (pre ++ [p, q]) = totalLen (pre ++ [p]) + c := by
    rw [totalLen_concat, hqp]
  rw [heq] at et
  linarith

@[simp] lemma mk_add_mk (a b c d : ℝ) : (Vector.mk a b) + (Vector.mk c d) = ⟨a + c, b + d⟩ := rfl

@[simp] lemma mk_sub_mk (a b c d : ℝ) : (Vector.mk a b) - (Vector.mk c d) = ⟨a - c, b - d⟩ := rfl

@[simp] lemma mk_neg (a b : ℝ) : -(Vector.mk a b) = ⟨-a, -b⟩ := rfl

@[simp] lemma mk_scale (a b c : ℝ) : (Vector.mk a b).scale c = ⟨a * c, b * c⟩ := rfl

@[simp] lemma neg_neg_vec (v : Vector) : -(-v) = v := by
  ext <;> simp

lemma vecEq_refl (v : Vector) : vecEq v v := by
  constructor <;> simp [approximateEq, f64Epsilon]

lemma roundf_nonneg_eq (x : ℝ) (n : ℤ) (h1 : 0 ≤ x) (h2 : (n : ℝ) ≤ x + 1 / 2)
    (h3 : x + 1 / 2 < n + 1) : roundf x = n := by
  rw [roundf, if_pos h1]
  have : ⌊x + 1 / 2⌋ = n := Int.floor_eq_iff.mpr ⟨h2, h3⟩
  exact_mod_cast congrArg (fun z : ℤ => (z : ℝ)) this

lemma initSnake_eval : initSnake 10 10 3 ⟨1, 0⟩ = [⟨1.5, 4.5⟩, ⟨4.5, 4.5⟩] := by
  have hr : roundf (((10 : ℤ) : ℝ) / 2) = (5 : ℤ) := by
    apply roundf_nonneg_eq <;> norm_num
  simp only [initSnake, hr]
  norm_num

lemma length_three_zero : (Vector.mk 3 0).length = 3 := by
  rw [length_mk_x]
  norm_num

lemma erode_sample (r : ℝ) (h0 : r ≤ 3) :
    erode r [⟨1.5, 4.5⟩, (⟨4.5, 4.5⟩ : Vector)] = [⟨1.5 + r, 4.5⟩, ⟨4.5, 4.5⟩] := by
  have hv : ((⟨4.5, 4.5⟩ : Vector) - ⟨1.5, 4.5⟩) = ⟨3, 0⟩ := by
    rw [mk_sub_mk]
    norm_num
  have hn : (Vector.mk 3 0).normalize = ⟨1, 0⟩ := by
    rw [Vector.normalize, length_three_zero, mk_scale]
    norm_num
  simp only [erode, segment_length_mk, segment_vector_mk, hv, length_three_zero, hn]
  rw [if_pos h0]
  norm_num

lemma erode_sample_over (r : ℝ) (h3 : 3 < r) :
    erode r [⟨1.5, 4.5⟩, (⟨4.5, 4.5⟩ : Vector)] = [⟨4.5, 4.5⟩] := by
  have hv : ((⟨4.5, 4.5⟩ : Vector) - ⟨1.5, 4.5⟩) = ⟨3, 0⟩ := by
    rw [mk_sub_mk]
    norm_num
  simp only [erode, segment_length_mk, segment_vector_mk, hv, length_three_zero]
  rw [if_neg (by linarith)]

lemma turnResolved_none (g : Game) (t : ℝ) : ¬ turnResolved g t none := by
  rintro ⟨m, oh, hm, -⟩
  exact Option.noConfusion hm

lemma processMovement_none_eq (g : Game) (t : ℝ) (L : Vector)
    (hL : g.snake.getLast? = some L) :
    processMovement g t none = some { g with snake :=
      (erode (g.speed * t) g.snake).dropLast ++ [L + g.direction.scale (g.speed * t)] } :=
  processMovement_straight g t none L (by rw [erode_getLast?]; exact hL)
    (turnResolved_none g t)

/-- C3: the concrete scenario of `Game::new(10, 10, 1.0, 3, Vector{x:1,y:0})`
(for any sampled food value): the snake is exactly `[(1.5,4.5), (4.5,4.5)]`,
and `process(1.0, None)` yields exactly `[(2.5,4.5), (5.5,4.5)]` with
direction (and every other field) unchanged. -/
theorem new_game_scenario (food : Vector) :
    (gameNew 10 10 1 3 ⟨1, 0⟩ food).snake = [⟨1.5, 4.5⟩, ⟨4.5, 4.5⟩] ∧
    processMovement (gameNew 10 10 1 3 ⟨1, 0⟩ food) 1 none =
      some { gameNew 10 10 1 3 ⟨1, 0⟩ food with snake := [⟨2.5, 4.5⟩, ⟨5.5, 4.5⟩] } := by
  have hsnake : (gameNew 10 10 1 3 ⟨1, 0⟩ food).snake = [⟨1.5, 4.5⟩, ⟨4.5, 4.5⟩] :=
    initSnake_eval
  refine ⟨hsnake, ?_⟩
  have hL : (gameNew 10 10 1 3 ⟨1, 0⟩ food).snake.getLast? = some ⟨4.5, 4.5⟩ := by
    rw [hsnake]
    rfl
  rw [processMovement_none_eq _ 1 _ hL]
  have hsp : (gameNew 10 10 1 3 ⟨1, 0⟩ food).speed * 1 = 1 := mul_one _
  have her : erode ((gameNew 10 10 1 3 ⟨1, 0⟩ food).speed * 1)
      (gameNew 10 10 1 3 ⟨1, 0⟩ food).snake = [⟨2.5, 4.5⟩, ⟨4.5, 4.5⟩] := by
    rw [hsp, hsnake, erode_sample 1 (by norm_num)]
    norm_num
  rw [her, hsp]
  show some _ = some _
  congr 1
  show ({ gameNew 10 10 1 3 ⟨1, 0⟩ food with
    snake := [(⟨2.5, 4.5⟩ : Vector)] ++ [⟨4.5, 4.5⟩ + Vector.scale ⟨1, 0⟩ 1] } : Game) = _
  norm_num

/-- C10: `process(0.0, None)` is the identity on every game whose snake has at
least two waypoints and whose first segment has non-zero length: the snake,
direction, food, score, width, height and speed are all exactly unchanged. -/
theorem zero_timespan_identity (g : Game) (p q : Vector) (rest : List Vector)
    (hs : g.snake = p :: q :: rest) (hnz : (q - p).length ≠ 0) :
    processMovement g 0 none = some g := by
  have h00 : g.speed * 0 = 0 := mul_zero _
  have he : erode 0 g.snake = g.snake := by
    rw [hs]
    simp only [erode, segment_length_mk, segment_vector_mk]
    rw [if_pos (length_nonneg _)]
    congr 1
    ext <;> simp [Vector.scale]
  have hne : g.snake ≠ [] := by
    rw [hs]
    simp
  have hL : g.snake.getLast? = some (g.snake.getLast hne) :=
    List.getLast?_eq_getLast _ hne
  have hstraight := processMovement_straight g 0 none (g.snake.getLast hne)
    (by rw [h00, he]; exact hL) (turnResolved_none g 0)
  rw [hstraight]
  have hsnake : (erode (g.speed * 0) g.snake).dropLast ++
      [g.snake.getLast hne + g.direction.scale (g.speed * 0)] = g.snake := by
    rw [h00, he]
    have hL' : g.snake.getLast hne + g.direction.scale 0 = g.snake.getLast hne := by
      ext <;> simp [Vector.scale]
    rw [hL']
    exact List.dropLast_append_getLast hne
  simp only [hsnake]

/-- C7: a movement request whose direction vector equals the current direction
or its exact negation leaves the game's direction unchanged after `process`. -/
theorem turn_suppression (g : Game) (t : ℝ) (m : Movement) (g' : Game)
    (hreq : m.vector = g.direction ∨ m.vector = -g.direction)
    (hp : processMovement g t (some m) = some g') :
    g'.direction = g.direction := by
  have hguard : ¬ (¬ vecEq g.direction (-(m.vector)) ∧ ¬ vecEq g.direction m.vector) := by
    rcases hreq with h | h
    · intro hc
      exact hc.2 (h ▸ vecEq_refl g.direction)
    · intro hc
      apply hc.1
      rw [h, neg_neg_vec]
      exact vecEq_refl g.direction
  unfold processMovement at hp
  cases hL : (erode (g.speed * t) g.snake).getLast? with
  | none => simp [hL] at hp
  | some oh =>
    simp only [hL] at hp
    rw [if_neg hguard] at hp
    simp only [Option.some.injEq] at hp
    subst hp
    rfl

lemma sample_speed : (gameNew 10 10 1 3 ⟨1, 0⟩ ⟨0.5, 0.5⟩).speed = 1 := rfl

lemma sample_snake : (gameNew 10 10 1 3 ⟨1, 0⟩ ⟨0.5, 0.5⟩).snake = [⟨1.5, 4.5⟩, ⟨4.5, 4.5⟩] :=
  initSnake_eval

lemma sample_totalLen : totalLen (gameNew 10 10 1 3 ⟨1, 0⟩ ⟨0.5, 0.5⟩).snake = 3 := by
  rw [sample_snake, totalLen_cons_cons, totalLen_singleton]
  have hv : ((⟨4.5, 4.5⟩ : Vector) - ⟨1.5, 4.5⟩) = ⟨3, 0⟩ := by norm_num
  rw [hv, length_three_zero]
  norm_num

lemma sample_getLast : (gameNew 10 10 1 3 ⟨1, 0⟩ ⟨0.5, 0.5⟩).snake.getLast? =
    some ⟨4.5, 4.5⟩ := by
  rw [sample_snake]
  rfl

/-- Witness for C1 at `Game::new(10, 10, 1.0, 3, (1,0))` with `timespan = 1`. -/
theorem motion_conservation_witness :
    ∃ g', processMovement (gameNew 10 10 1 3 ⟨1, 0⟩ ⟨0.5, 0.5⟩) 1 none = some g' ∧
      totalLen (erode ((gameNew 10 10 1 3 ⟨1, 0⟩ ⟨0.5, 0.5⟩).speed * 1)
          (gameNew 10 10 1 3 ⟨1, 0⟩ ⟨0.5, 0.5⟩).snake) =
        totalLen (gameNew 10 10 1 3 ⟨1, 0⟩ ⟨0.5, 0.5⟩).snake -
          (gameNew 10 10 1 3 ⟨1, 0⟩ ⟨0.5, 0.5⟩).speed * 1 ∧
      totalLen g'.snake = totalLen (gameNew 10 10 1 3 ⟨1, 0⟩ ⟨0.5, 0.5⟩).snake :=
  motion_conservation (gameNew 10 10 1 3 ⟨1, 0⟩ ⟨0.5, 0.5⟩) 1 none
    (by rw [sample_speed]; norm_num)
    (by rw [show (gameNew 10 10 1 3 ⟨1, 0⟩ ⟨0.5, 0.5⟩).direction = ⟨1, 0⟩ from rfl,
      length_mk_x]; norm_num)
    (⟨[], ⟨1.5, 4.5⟩, ⟨4.5, 4.5⟩, 3, sample_snake, by norm_num, by
      rw [show (gameNew 10 10 1 3 ⟨1, 0⟩ ⟨0.5, 0.5⟩).direction = (⟨1, 0⟩ : Vector) from rfl]
      norm_num⟩)
    (by rw [sample_speed, sample_totalLen]; norm_num)
    (turnResolved_none _ _)

/-- C9: one straight tick of timespan `T` yields the same final head position
(within the approximate-equality tolerance; here in fact exactly) as two
straight ticks of timespan `T / 2`. -/
theorem subdivision_invariance (g : Game) (T : ℝ) (L : Vector)
    (hL : g.snake.getLast? = some L)
    (hlen : g.speed * T ≤ totalLen g.snake) :
    ∃ gA gB gC hA hC,
      processMovement g T none = some gA ∧
      processMovement g (T / 2) none = some gB ∧
      processMovement gB (T / 2) none = some gC ∧
      gA.snake.getLast? = some hA ∧ gC.snake.getLast? = some hC ∧ vecEq hA hC := by
  have h1 := processMovement_none_eq g T L hL
  have h2 := processMovement_none_eq g (T / 2) L hL
  have h3 := processMovement_none_eq
    { g with snake := (erode (g.speed * (T / 2)) g.snake).dropLast ++
        [L + g.direction.scale (g.speed * (T / 2))] }
    (T / 2) (L + g.direction.scale (g.speed * (T / 2))) (List.getLast?_concat _)
  refine ⟨_, _, _, _, _, h1, h2, h3, List.getLast?_concat _, List.getLast?_concat _, ?_⟩
  have heads : L + g.direction.scale (g.speed * T) =
      (L + g.direction.scale (g.speed * (T / 2))) +
        g.direction.scale (g.speed * (T / 2)) := by
    ext <;> (simp [Vector.scale]; ring)
  show vecEq (L + g.direction.scale (g.speed * T))
    ((L + g.direction.scale (g.speed * (T / 2))) + g.direction.scale (g.speed * (T / 2)))
  rw [heads]
  exact vecEq_refl _

/-- Witness for C9 at `Game::new(10, 10, 1.0, 3, (1,0))` with `T = 1`. -/
theorem subdivision_invariance_witness :
    ∃ gA gB gC hA hC,
      processMovement (gameNew 10 10 1 3 ⟨1, 0⟩ ⟨0.5, 0.5⟩) 1 none = some gA ∧
      processMovement (gameNew 10 10 1 3 ⟨1, 0⟩ ⟨0.5, 0.5⟩) (1 / 2) none = some gB ∧
      processMovement gB (1 / 2) none = some gC ∧
      gA.snake.getLast? = some hA ∧ gC.snake.getLast? = some hC ∧ vecEq hA hC :=
  subdivision_invariance (gameNew 10 10 1 3 ⟨1, 0⟩ ⟨0.5, 0.5⟩) 1 ⟨4.5, 4.5⟩
    sample_getLast (by rw [sample_speed, sample_totalLen]; norm_num)

lemma processMovement_snake_length (g : Game) (t : ℝ) (mv : Option Movement) (g' : Game)
    (hp : processMovement g t mv = some g') :
    (erode (g.speed * t) g.snake).length ≤ g'.snake.length := by
  unfold processMovement at hp
  cases hL : (erode (g.speed * t) g.snake).getLast? with
  | none =>
    simp only [hL] at hp
    exact Option.noConfusion hp
  | some oh =>
    have hne : erode (g.speed * t) g.snake ≠ [] := by
      intro h
      rw [h] at hL
      exact Option.noConfusion hL
    have hlen1 : 1 ≤ (erode (g.speed * t) g.snake).length :=
      List.length_pos.mpr hne
    cases mv with
    | none =>
      simp only [hL] at hp
      simp only [Option.some.injEq] at hp
      subst hp
      simp only [List.length_append, List.length_dropLast, List.length_cons,
        List.length_nil]
      omega
    | some m =>
      simp only [hL] at hp
      split_ifs at hp <;>
        · simp only [Option.some.injEq] at hp
          subst hp
          simp only [List.length_append, List.length_dropLast, List.length_cons,
            List.length_nil]
          omega

/-- Game states reachable from `Game::new` by `process` calls whose tick
budget `speed * timespan` never exceeds the snake's current total length. -/
inductive ReachableBounded : Game → Prop where
  | base (width height : ℤ) (speed : ℝ) (snake_length : ℤ) (direction food : Vector) :
      ReachableBounded (gameNew width height speed snake_length direction food)
  | step (a b : Game) (t : ℝ) (mv : Option Movement)
      (hg : ReachableBounded a)
      (hbud : a.speed * t ≤ totalLen a.snake)
      (hp : processMovement a t mv = some b) : ReachableBounded b

/-- C4 (amended): every game reachable from `Game::new` through `process` calls
whose `full_distance` never exceeds the snake's current total polyline length
has at least 2 waypoints. -/
theorem reachable_min_waypoints (g : Game) (h : ReachableBounded g) :
    2 ≤ g.snake.length := by
  induction h with
  | base width height speed snake_length direction food => simp [gameNew, initSnake]
  | step a b t mv hg hbud hp ih =>
    have h1 := erode_length_ge (a.speed * t) a.snake ih hbud
    have h2 := processMovement_snake_length a t mv b hp
    omega

/-- Witness for the amended C4 at a freshly constructed game. -/
theorem reachable_min_waypoints_witness :
    2 ≤ (gameNew 10 10 1 3 ⟨1, 0⟩ ⟨0.5, 0.5⟩).snake.length :=
  reachable_min_waypoints _ (ReachableBounded.base 10 10 1 3 ⟨1, 0⟩ ⟨0.5, 0.5⟩)

/-- Counterexample to C4 as stated: one `process` call with `timespan = 4`
(so `full_distance = 4 >` total length `3`) on a fresh game leaves a snake of
a single waypoint. -/
theorem snake_shrinks_below_two_waypoints :
    ∃ g', processMovement (gameNew 10 10 1 3 ⟨1, 0⟩ ⟨0.5, 0.5⟩) 4 none = some g' ∧
      g'.snake.length = 1 := by
  have h1 := processMovement_none_eq (gameNew 10 10 1 3 ⟨1, 0⟩ ⟨0.5, 0.5⟩) 4 ⟨4.5, 4.5⟩
    sample_getLast
  refine ⟨_, h1, ?_⟩
  have her : erode ((gameNew 10 10 1 3 ⟨1, 0⟩ ⟨0.5, 0.5⟩).speed * 4)
      (gameNew 10 10 1 3 ⟨1, 0⟩ ⟨0.5, 0.5⟩).snake = [⟨4.5, 4.5⟩] := by
    rw [sample_speed, one_mul, sample_snake]
    exact erode_sample_over 4 (by norm_num)
  show ((erode ((gameNew 10 10 1 3 ⟨1, 0⟩ ⟨0.5, 0.5⟩).speed * 4)
    (gameNew 10 10 1 3 ⟨1, 0⟩ ⟨0.5, 0.5⟩).snake).dropLast ++
    [(⟨4.5, 4.5⟩ : Vector) + Vector.scale (gameNew 10 10 1 3 ⟨1, 0⟩ ⟨0.5, 0.5⟩).direction
      ((gameNew 10 10 1 3 ⟨1, 0⟩ ⟨0.5, 0.5⟩).speed * 4)]).length = 1
  rw [her]
  rfl

/-- Witness for C10 at `Game::new(10, 10, 1.0, 3, (1,0))`. -/
theorem zero_timespan_identity_witness :
    processMovement (gameNew 10 10 1 3 ⟨1, 0⟩ ⟨0.5, 0.5⟩) 0 none =
      some (gameNew 10 10 1 3 ⟨1, 0⟩ ⟨0.5, 0.5⟩) :=
  zero_timespan_identity _ ⟨1.5, 4.5⟩ ⟨4.5, 4.5⟩ [] sample_snake
    (by
      have hv : ((⟨4.5, 4.5⟩ : Vector) - ⟨1.5, 4.5⟩) = ⟨3, 0⟩ := by norm_num
      rw [hv, length_three_zero]
      norm_num)

lemma sample_erode_getLast :
    (erode ((gameNew 10 10 1 3 ⟨1, 0⟩ ⟨0.5, 0.5⟩).speed * 1)
      (gameNew 10 10 1 3 ⟨1, 0⟩ ⟨0.5, 0.5⟩).snake).getLast? = some ⟨4.5, 4.5⟩ := by
  rw [sample_speed, one_mul, sample_snake, erode_sample 1 (by norm_num)]
  rfl

/-- Witness for C7: requesting `Right` while already heading right leaves the
direction unchanged. -/
theorem turn_suppression_witness :
    ∃ g', processMovement (gameNew 10 10 1 3 ⟨1, 0⟩ ⟨0.5, 0.5⟩) 1 (some Movement.right) =
      some g' ∧ g'.direction = (gameNew 10 10 1 3 ⟨1, 0⟩ ⟨0.5, 0.5⟩).direction := by
  have hnt : ¬ turnResolved (gameNew 10 10 1 3 ⟨1, 0⟩ ⟨0.5, 0.5⟩) 1
      (some Movement.right) := by
    rintro ⟨m, oh, hm, -, -, hn2, -⟩
    injection hm with hm
    subst hm
    exact hn2 (vecEq_refl _)
  have hp := processMovement_straight (gameNew 10 10 1 3 ⟨1, 0⟩ ⟨0.5, 0.5⟩) 1
    (some Movement.right) ⟨4.5, 4.5⟩ sample_erode_getLast hnt
  exact ⟨_, hp, turn_suppression _ 1 Movement.right _ (Or.inl rfl) hp⟩

open Classical in
/-- Modelled from the spec (§4.4 steps c–d): the cell-edge breakpoint of a
resolved turn, with the x axis taking precedence when its rounded coordinate
changed. -/
noncomputable def specBreakpoint (oh nh : Vector) : Vector :=
  if roundf oh.x ≠ roundf nh.x then
    Vector.mk (if roundf nh.x > roundf oh.x then roundf oh.x + 0.5 else roundf oh.x - 0.5)
      oh.y
  else
    Vector.mk oh.x
      (if roundf nh.y > roundf oh.y then roundf oh.y + 0.5 else roundf oh.y - 0.5)

open Classical in
/-- Modelled from the spec (§4.4 step e): leftover distance after reaching the
cell edge, on the turning axis. -/
noncomputable def specLeftover (oh nh : Vector) (fd : ℝ) : ℝ :=
  if roundf oh.x ≠ roundf nh.x then fd - |oh.x - (specBreakpoint oh nh).x|
  else fd - |oh.y - (specBreakpoint oh nh).y|

/-- Modelled from the spec (§4.4 step e): final head of a resolved turn. -/
noncomputable def specTurnHead (oh nh nd : Vector) (fd : ℝ) : Vector :=
  specBreakpoint oh nh + nd.scale (specLeftover oh nh fd)

open Classical in
/-- C2: whenever `process` resolves a turn (request neither the current
direction nor its negation, and a rounded head coordinate changed), the
turning axis is x whenever the rounded x coordinate changed (else y), the
breakpoint sits at `old_rounded ± 0.5` on the turning axis sharing the old
head's other coordinate, the final head is
`breakpoint + new_direction * (full_distance - |old - breakpoint_component|)`,
both are appended as two waypoints, and the direction becomes the request. -/
theorem turn_resolution (g : Game) (t : ℝ) (m : Movement) (oh : Vector)
    (hlast : (erode (g.speed * t) g.snake).getLast? = some oh)
    (hdir : ¬ vecEq g.direction (-(m.vector)) ∧ ¬ vecEq g.direction m.vector)
    (hchanged : roundf oh.x ≠ roundf (oh + g.direction.scale (g.speed * t)).x ∨
      roundf oh.y ≠ roundf (oh + g.direction.scale (g.speed * t)).y) :
    processMovement g t (some m) = some { g with
      direction := m.vector
      snake := (erode (g.speed * t) g.snake).dropLast ++
        [specBreakpoint oh (oh + g.direction.scale (g.speed * t)),
         specTurnHead oh (oh + g.direction.scale (g.speed * t)) m.vector
           (g.speed * t)] } := by
  unfold processMovement
  simp only [hlast]
  rw [if_pos hdir, if_pos hchanged]
  by_cases hx : roundf oh.x ≠ roundf (oh + g.direction.scale (g.speed * t)).x
  · simp only [specBreakpoint, specTurnHead, specLeftover, if_pos hx]
  · simp only [specBreakpoint, specTurnHead, specLeftover, if_neg hx]

/-- Witness for C2: turning down after one full-speed tick from the fresh game. -/
theorem turn_resolution_witness :
    processMovement (gameNew 10 10 1 3 ⟨1, 0⟩ ⟨0.5, 0.5⟩) 1 (some Movement.down) =
      some { gameNew 10 10 1 3 ⟨1, 0⟩ ⟨0.5, 0.5⟩ with
        direction := Movement.down.vector
        snake := (erode ((gameNew 10 10 1 3 ⟨1, 0⟩ ⟨0.5, 0.5⟩).speed * 1)
            (gameNew 10 10 1 3 ⟨1, 0⟩ ⟨0.5, 0.5⟩).snake).dropLast ++
          [specBreakpoint ⟨4.5, 4.5⟩ ((⟨4.5, 4.5⟩ : Vector) +
              (gameNew 10 10 1 3 ⟨1, 0⟩ ⟨0.5, 0.5⟩).direction.scale
                ((gameNew 10 10 1 3 ⟨1, 0⟩ ⟨0.5, 0.5⟩).speed * 1)),
           specTurnHead ⟨4.5, 4.5⟩ ((⟨4.5, 4.5⟩ : Vector) +
              (gameNew 10 10 1 3 ⟨1, 0⟩ ⟨0.5, 0.5⟩).direction.scale
                ((gameNew 10 10 1 3 ⟨1, 0⟩ ⟨0.5, 0.5⟩).speed * 1))
             Movement.down.vector ((gameNew 10 10 1 3 ⟨1, 0⟩ ⟨0.5, 0.5⟩).speed * 1)] } := by
  apply turn_resolution _ 1 Movement.down ⟨4.5, 4.5⟩ sample_erode_getLast
  · rw [show (gameNew 10 10 1 3 ⟨1, 0⟩ ⟨0.5, 0.5⟩).direction = (⟨1, 0⟩ : Vector) from rfl]
    constructor
    · intro h
      have h1 := h.1
      norm_num [approximateEq, f64Epsilon, Movement.vector] at h1
    · intro h
      have h1 := h.1
      norm_num [approximateEq, f64Epsilon, Movement.vector] at h1
  · refine Or.inl ?_
    rw [show (gameNew 10 10 1 3 ⟨1, 0⟩ ⟨0.5, 0.5⟩).direction = (⟨1, 0⟩ : Vector) from rfl,
      sample_speed]
    have hnh : ((⟨4.5, 4.5⟩ : Vector) + Vector.scale ⟨1, 0⟩ ((1 : ℝ) * 1)) = ⟨5.5, 4.5⟩ := by
      norm_num
    rw [hnh]
    rw [show ((⟨4.5, 4.5⟩ : Vector)).x = (4.5 : ℝ) from rfl,
      show ((⟨5.5, 4.5⟩ : Vector)).x = (5.5 : ℝ) from rfl]
    rw [roundf_nonneg_eq 4.5 5 (by norm_num) (by norm_num) (by norm_num),
      roundf_nonneg_eq 5.5 6 (by norm_num) (by norm_num) (by norm_num)]
    norm_num

lemma length_zero_vec : (Vector.mk 0 0).length = 0 := by
  rw [length_mk_x]
  norm_num

lemma cellCenters_one_one : cellCenters 1 1 = [⟨0.5, 0.5⟩] := by
  have h : cellCenters 1 1 = [⟨((0 : ℕ) : ℝ) + 0.5, ((0 : ℕ) : ℝ) + 0.5⟩] := rfl
  rw [h]
  norm_num

/-- C5 evaluation: on a board fully covered by the snake (here a degenerate
1×1 board whose single cell center lies on a zero-length snake segment),
`generate_food_position` finds no free cell and panics on its unchecked
`unwrap` (modelled by `none`); no distinct board-full outcome is produced. -/
theorem food_panics_on_full_board :
    freePositions 1 1 [⟨0.5, 0.5⟩, ⟨0.5, 0.5⟩] = [] ∧
    generateFoodPosition 1 1 [⟨0.5, 0.5⟩, ⟨0.5, 0.5⟩] 0 = none := by
  have hP : ∃ seg ∈ segmentsOf [(⟨0.5, 0.5⟩ : Vector), ⟨0.5, 0.5⟩],
      seg.isPointInside ⟨0.5, 0.5⟩ := by
    refine ⟨Segment.mk ⟨0.5, 0.5⟩ ⟨0.5, 0.5⟩, by simp [segmentsOf], ?_⟩
    have hz : ((⟨0.5, 0.5⟩ : Vector) - ⟨0.5, 0.5⟩) = ⟨0, 0⟩ := by norm_num
    simp only [Segment.isPointInside, segment_length_mk, hz, length_zero_vec]
    norm_num [approximateEq, f64Epsilon]
  have hd : (@decide (¬ ∃ seg ∈ segmentsOf [(⟨0.5, 0.5⟩ : Vector), ⟨0.5, 0.5⟩],
      seg.isPointInside ⟨0.5, 0.5⟩)
      (Classical.propDecidable _)) = false :=
    @decide_eq_false _ (Classical.propDecidable _) (not_not_intro hP)
  have hfree : freePositions 1 1 [⟨0.5, 0.5⟩, ⟨0.5, 0.5⟩] = [] := by
    unfold freePositions
    rw [List.filter_eq_nil_iff]
    intro a ha
    rw [cellCenters_one_one, List.mem_singleton] at ha
    subst ha
    simp only [hd]
    simp
  refine ⟨hfree, ?_⟩
  show (freePositions 1 1 [⟨0.5, 0.5⟩, ⟨0.5, 0.5⟩]).get?
    (0 % (freePositions 1 1 [⟨0.5, 0.5⟩, ⟨0.5, 0.5⟩]).length) = none
  rw [hfree]
  rfl

/-- C6: whenever at least one free cell exists, the food position produced by
`generate_food_position` (for any injected random index) is a cell center
`(x+0.5, y+0.5)` with `(x, y)` in `[0, width) × [0, height)` on which no
consecutive-waypoint segment's `is_point_inside` holds. -/
theorem food_on_free_cell (w h : ℤ) (s : List Vector) (k : ℕ)
    (hfree : freePositions w h s ≠ []) :
    ∃ p, generateFoodPosition w h s k = some p ∧
      (∃ cx cy : ℤ, 0 ≤ cx ∧ cx < w ∧ 0 ≤ cy ∧ cy < h ∧
        p = ⟨(cx : ℝ) + 0.5, (cy : ℝ) + 0.5⟩) ∧
      ∀ seg ∈ segmentsOf s, ¬ seg.isPointInside p := by
  have hlen : 0 < (freePositions w h s).length := List.length_pos.mpr hfree
  have hk : k % (freePositions w h s).length < (freePositions w h s).length :=
    Nat.mod_lt _ hlen
  have hget : generateFoodPosition w h s k =
      some ((freePositions w h s).get ⟨k % (freePositions w h s).length, hk⟩) := by
    show (freePositions w h s).get? (k % (freePositions w h s).length) = _
    rw [List.get?_eq_get hk]
  have hmem : (freePositions w h s).get ⟨k % (freePositions w h s).length, hk⟩ ∈
      freePositions w h s := List.get_mem _ _ _
  revert hget hmem
  generalize (freePositions w h s).get ⟨k % (freePositions w h s).length, hk⟩ = p
  intro hget hmem
  refine ⟨p, hget, ?_, ?_⟩
  · unfold freePositions at hmem
    rw [List.mem_filter] at hmem
    have hcell := hmem.1
    unfold cellCenters at hcell
    rw [List.mem_flatten] at hcell
    obtain ⟨l, hl, hpl⟩ := hcell
    rw [List.mem_map] at hl
    obtain ⟨x, hx, rfl⟩ := hl
    rw [List.mem_map] at hpl
    obtain ⟨y, hy, hpy⟩ := hpl
    rw [List.mem_range] at hx hy
    have hw : 0 < w := by
      by_contra hw
      push_neg at hw
      rw [Int.toNat_of_nonpos hw] at hx
      exact Nat.not_lt_zero x hx
    have hh : 0 < h := by
      by_contra hh
      push_neg at hh
      rw [Int.toNat_of_nonpos hh] at hy
      exact Nat.not_lt_zero y hy
    refine ⟨(x : ℤ), (y : ℤ), Int.ofNat_nonneg x, ?_, Int.ofNat_nonneg y, ?_, ?_⟩
    · have hxw : (x : ℤ) < (w.toNat : ℤ) := by exact_mod_cast hx
      rwa [Int.toNat_of_nonneg hw.le] at hxw
    · have hyh : (y : ℤ) < (h.toNat : ℤ) := by exact_mod_cast hy
      rwa [Int.toNat_of_nonneg hh.le] at hyh
    · rw [← hpy]
      ext <;> push_cast <;> norm_num
  · unfold freePositions at hmem
    rw [List.mem_filter] at hmem
    have hnocc : ¬ ∃ seg ∈ segmentsOf s, seg.isPointInside p :=
      @of_decide_eq_true _ (Classical.propDecidable _) hmem.2
    intro seg hseg hin
    exact hnocc ⟨seg, hseg, hin⟩

/-- Witness for C6: a 1×1 grid with the snake far away from its single cell. -/
theorem food_on_free_cell_witness :
    ∃ p, generateFoodPosition 1 1 [⟨0.5, 2.5⟩, ⟨0.5, 3.5⟩] 0 = some p ∧
      (∃ cx cy : ℤ, 0 ≤ cx ∧ cx < 1 ∧ 0 ≤ cy ∧ cy < 1 ∧
        p = ⟨(cx : ℝ) + 0.5, (cy : ℝ) + 0.5⟩) ∧
      ∀ seg ∈ segmentsOf [(⟨0.5, 2.5⟩ : Vector), ⟨0.5, 3.5⟩], ¬ seg.isPointInside p := by
  apply food_on_free_cell 1 1 [⟨0.5, 2.5⟩, ⟨0.5, 3.5⟩] 0
  have hP : ¬ ∃ seg ∈ segmentsOf [(⟨0.5, 2.5⟩ : Vector), ⟨0.5, 3.5⟩],
      seg.isPointInside ⟨0.5, 0.5⟩ := by
    rintro ⟨seg, hseg, hin⟩
    simp only [segmentsOf, List.mem_singleton] at hseg
    subst hseg
    have h1 : ((⟨0.5, 3.5⟩ : Vector) - ⟨0.5, 2.5⟩) = ⟨0, 1⟩ := by norm_num
    have h2 : ((⟨0.5, 0.5⟩ : Vector) - ⟨0.5, 2.5⟩) = ⟨0, -2⟩ := by norm_num
    have h3 : ((⟨0.5, 3.5⟩ : Vector) - ⟨0.5, 0.5⟩) = ⟨0, 3⟩ := by norm_num
    simp only [Segment.isPointInside, segment_length_mk, h1, h2, h3, length_mk_y] at hin
    norm_num [approximateEq, f64Epsilon] at hin
  have hd : (@decide (¬ ∃ seg ∈ segmentsOf [(⟨0.5, 2.5⟩ : Vector), ⟨0.5, 3.5⟩],
      seg.isPointInside ⟨0.5, 0.5⟩)
      (Classical.propDecidable _)) = true :=
    @decide_eq_true _ (Classical.propDecidable _) hP
  have hmem : (⟨0.5, 0.5⟩ : Vector) ∈ freePositions 1 1 [⟨0.5, 2.5⟩, ⟨0.5, 3.5⟩] := by
    unfold freePositions
    rw [List.mem_filter]
    exact ⟨by rw [cellCenters_one_one]; exact List.mem_singleton_self _, hd⟩
  exact List.ne_nil_of_mem hmem

/-- C8: vector equality is approximate with the 64-bit machine epsilon
`f64::EPSILON = 2⁻⁵²` as the strict bound on both coordinate differences; the
declared named constant `X_EPSILON = 1e-5` plays no part: a pair whose
difference is below `1e-5` but above `2⁻⁵²` still compares unequal. -/
theorem vecEq_machine_epsilon :
    (∀ v w : Vector, vecEq v w ↔ (|v.x - w.x| < f64Epsilon ∧ |v.y - w.y| < f64Epsilon)) ∧
    f64Epsilon = 1 / 2 ^ 52 ∧
    (|(1 / 1000000 : ℝ) - 0| < X_EPSILON ∧
      ¬ vecEq ⟨1 / 1000000, 0⟩ ⟨0, 0⟩) := by
  refine ⟨fun v w => Iff.rfl, rfl, ?_, ?_⟩
  · rw [show |(1 / 1000000 : ℝ) - 0| = 1 / 1000000 by
      rw [sub_zero]; exact abs_of_pos (by norm_num)]
    norm_num [X_EPSILON]
  · intro h
    have h1 := h.1
    norm_num [approximateEq, f64Epsilon] at h1
    rw [show |(1 / 1000000 : ℝ)| = 1 / 1000000 from abs_of_pos (by norm_num)] at h1
    norm_num at h1

end Snake
